import Mathlib

/-!
Verification of the waferslim SLIM-protocol server against its
natural-language specification.

The definitions below are a shallow embedding of the Python sources:

* `waferslim/protocol.py` — the SLIM wire codec (`pack` / `unpack`,
  `_pack_item`, `_unpack_chunk`, `_is_chunk`, `_check_separator`) and the
  version banner `_VERSION` sent by `RequestResponder._send_ack`.
* `execution.py` — the instruction engine (`Instructions.execute`,
  `Results.completed`, `Results.failed`), the symbol substitution of
  `ParamsConverter`, the method-name alias machinery
  (`ExecutionContext.get_aliases`, `to_lower_camel_case`,
  `to_upper_camel_case`, `target_for`) and the instance / symbol tables
  (`store_instance`, `get_instance`, `get_symbol`).
* `waferslim/converters.py` — the `TrueFalseConverter` and the
  `to_string` dispatch used by the engine.

Python strings are modelled as `List Char`; a Python 2 byte string
(`str`) is a `List Char` each of whose characters is a byte value.
Python dictionaries are modelled as their assignment sequences
(`List (key × value)`): assignment appends a pair and lookup takes the
value of the last pair carrying the key, which is exactly the observable
lookup behaviour of a Python `dict`; iteration order is modelled as
first-insertion order.
-/

/-! ## Python dictionaries as assignment sequences -/

/-- Lookup in a Python dict: the value of the last assignment to `k`,
or `none` when `k` was never assigned (a `KeyError` in Python). -/
def pyDictGet {α : Type} (d : List (String × α)) (k : String) : Option α :=
  (d.reverse.find? (fun p => p.1 == k)).map (fun p => p.2)

/-- Iteration keys of a Python dict: first occurrence of each key, in
assignment order. -/
def pyDictKeys {α : Type} (d : List (String × α)) : List String :=
  (d.map (fun p => p.1)).foldl (fun acc k => if k ∈ acc then acc else acc ++ [k]) []

theorem pyDictGet_append {α : Type} (a b : List (String × α)) (k : String) :
    pyDictGet (a ++ b) k = ((pyDictGet b k).or (pyDictGet a k)) := by
  unfold pyDictGet
  rw [List.reverse_append, List.find?_append]
  cases h : List.find? (fun p => p.1 == k) b.reverse <;>
    simp [Option.or, h]

theorem pyDictGet_nil {α : Type} (k : String) : pyDictGet ([] : List (String × α)) k = none := rfl

theorem pyDictGet_mem {α : Type} {d : List (String × α)} {k : String} {v : α}
    (h : pyDictGet d k = some v) : (k, v) ∈ d := by
  unfold pyDictGet at h
  cases hf : d.reverse.find? (fun p => p.1 == k) with
  | none => rw [hf] at h; simp at h
  | some p =>
    rw [hf] at h
    have hp := List.find?_some hf
    have hmem := List.mem_reverse.mp (List.mem_of_find?_eq_some hf)
    simp at h hp
    obtain ⟨p1, p2⟩ := p
    simp at hp
    subst hp
    simpa [← h] using hmem

theorem pyDictGet_isSome_of_mem {α : Type} {d : List (String × α)} {k : String} {v : α}
    (h : (k, v) ∈ d) : (pyDictGet d k).isSome := by
  unfold pyDictGet
  cases hf : d.reverse.find? (fun p => p.1 == k) with
  | none =>
    have := List.find?_eq_none.mp hf (k, v) (List.mem_reverse.mpr h)
    simp at this
  | some p => simp

/-! ## Decimal number encoding (`_NUMERIC_ENCODING = '%06d'`) and `int()` parsing -/

/-- Character for a decimal digit value. -/
def digitChar (n : Nat) : Char := Char.ofNat (48 + n)

/-- Decimal digits of a number, most significant first (`str(n)` in Python
for a nonnegative `n`), computed with a structural fuel so that the
definition reduces; `natDigits` supplies sufficient fuel. -/
def natDigitsFuel : Nat → Nat → List Char → List Char
  | 0, _, acc => acc
  | fuel + 1, n, acc =>
    if n < 10 then digitChar n :: acc
    else natDigitsFuel fuel (n / 10) (digitChar (n % 10) :: acc)

def natDigits (n : Nat) : List Char := natDigitsFuel (n + 1) n []

/-- The `'%06d' % n` encoding: the decimal digits of `n`, zero-padded on
the left to at least six characters. -/
def numEncode (n : Nat) : List Char :=
  List.replicate (6 - (natDigits n).length) '0' ++ natDigits n

/-- Value of a digit string as read by Python's `int()` (digits only). -/
def digitsToNat (cs : List Char) : Nat :=
  cs.foldl (fun a c => 10 * a + (c.toNat - 48)) 0

theorem natDigitsFuel_eq (fuel n : Nat) (acc : List Char) (h : n < fuel) :
    natDigitsFuel fuel n acc = natDigits n ++ acc := by
  induction n using Nat.strong_induction_on generalizing fuel acc with
  | _ n ih =>
    cases fuel with
    | zero => omega
    | succ f =>
      by_cases hn : n < 10
      · simp [natDigitsFuel, natDigits, hn]
      · have hd : n / 10 < n := Nat.div_lt_self (by omega) (by omega)
        rw [natDigitsFuel, if_neg hn, ih _ hd _ _ (by omega)]
        conv_rhs => rw [natDigits, natDigitsFuel, if_neg hn, ih _ hd _ _ (by omega)]
        simp

/-- One-step unfolding of `natDigits`, used by the inductive proofs. -/
theorem natDigits_eq (n : Nat) :
    natDigits n = if n < 10 then [digitChar n]
      else natDigits (n / 10) ++ [digitChar (n % 10)] := by
  by_cases hn : n < 10
  · simp [natDigits, natDigitsFuel, hn]
  · have hd : n / 10 < n := Nat.div_lt_self (by omega) (by omega)
    rw [if_neg hn, natDigits, natDigitsFuel, if_neg hn, natDigitsFuel_eq _ _ _ (by omega)]

theorem digitChar_toNat {d : Nat} (h : d < 10) : (digitChar d).toNat = 48 + d := by
  interval_cases d <;> decide

theorem digitChar_isDigit {d : Nat} (h : d < 10) : (digitChar d).isDigit = true := by
  interval_cases d <;> decide

theorem digitsToNat_aux (cs : List Char) (a : Nat) :
    cs.foldl (fun a c => 10 * a + (c.toNat - 48)) a = a * 10 ^ cs.length + digitsToNat cs := by
  induction cs generalizing a with
  | nil => simp [digitsToNat]
  | cons c rest ih =>
    simp only [List.foldl_cons, List.length_cons, digitsToNat]
    rw [ih, ih (10 * 0 + (c.toNat - 48))]
    ring

theorem digitsToNat_append (a b : List Char) :
    digitsToNat (a ++ b) = digitsToNat a * 10 ^ b.length + digitsToNat b := by
  unfold digitsToNat
  rw [List.foldl_append]
  exact digitsToNat_aux b _

theorem digitsToNat_natDigits (n : Nat) : digitsToNat (natDigits n) = n := by
  induction n using Nat.strong_induction_on with
  | _ n ih =>
    by_cases h : n < 10
    · rw [natDigits_eq, if_pos h]
      simp [digitsToNat, digitChar_toNat h]
    · have hd : n / 10 < n := Nat.div_lt_self (by omega) (by omega)
      rw [natDigits_eq, if_neg h, digitsToNat_append, ih _ hd]
      have : (digitChar (n % 10)).toNat = 48 + n % 10 := digitChar_toNat (Nat.mod_lt _ (by omega))
      simp [digitsToNat, this]
      omega

theorem natDigits_all_digit (n : Nat) : (natDigits n).all Char.isDigit = true := by
  induction n using Nat.strong_induction_on with
  | _ n ih =>
    by_cases h : n < 10
    · rw [natDigits_eq, if_pos h]
      simp [digitChar_isDigit h]
    · have hd : n / 10 < n := Nat.div_lt_self (by omega) (by omega)
      rw [natDigits_eq, if_neg h]
      simp only [List.all_append]
      rw [ih _ hd]
      simp [digitChar_isDigit (Nat.mod_lt n (by omega))]

theorem natDigits_length_le {k n : Nat} (hk : 1 ≤ k) (h : n < 10 ^ k) :
    (natDigits n).length ≤ k := by
  induction k generalizing n with
  | zero => omega
  | succ k ih =>
    by_cases hn : n < 10
    · rw [natDigits_eq, if_pos hn]
      simp
    · have hk1 : 1 ≤ k := by
        by_contra hc
        have : k = 0 := by omega
        subst this
        simp at h
        omega
      rw [natDigits_eq, if_neg hn]
      have hdiv : n / 10 < 10 ^ k := by
        rw [pow_succ] at h
        omega
      have := ih hk1 hdiv
      simp [List.length_append]
      omega

theorem numEncode_length {n : Nat} (h : n < 1000000) : (numEncode n).length = 6 := by
  have hle : (natDigits n).length ≤ 6 := natDigits_length_le (by omega) (by norm_num; omega)
  simp [numEncode, List.length_append, List.length_replicate]
  omega

theorem digitsToNat_replicate_zero (k : Nat) (b : List Char) :
    digitsToNat (List.replicate k '0' ++ b) = digitsToNat b := by
  rw [digitsToNat_append]
  have : digitsToNat (List.replicate k '0') = 0 := by
    induction k with
    | zero => rfl
    | succ k ih =>
      rw [List.replicate_succ]
      have : digitsToNat ('0' :: List.replicate k '0') =
          digitsToNat ([('0' : Char)] ++ List.replicate k '0') := rfl
      rw [this, digitsToNat_append, ih]
      simp [digitsToNat]
  rw [this]
  simp

theorem digitsToNat_numEncode (n : Nat) : digitsToNat (numEncode n) = n := by
  rw [numEncode, digitsToNat_replicate_zero, digitsToNat_natDigits]

theorem numEncode_all_digit (n : Nat) : (numEncode n).all Char.isDigit = true := by
  rw [numEncode]
  simp only [List.all_append]
  rw [natDigits_all_digit]
  simp only [Bool.and_true]
  rw [List.all_eq_true]
  intro c hc
  rw [List.eq_of_mem_replicate hc]
  decide

/-! ## The SLIM codec data model and `pack` (`waferslim/protocol.py`) -/

/-- A value handled by the codec: a string, Python's `None`, or a nested
list (`pack` serialises lists recursively; `unpack` produces only the
`str` and `list` constructors). -/
inductive Chunk where
  | str (s : List Char)
  | nil
  | list (xs : List Chunk)

/-- The payload text of the literal `'null'`. -/
def nullChars : List Char := ['n', 'u', 'l', 'l']

/-- Python's `str.join` with the `':'` separator (`_SEPARATOR.join`). -/
def sepJoin : List (List Char) → List Char
  | [] => []
  | [a] => a
  | a :: b :: rest => a ++ ':' :: sepJoin (b :: rest)

mutual

/-- Embeds `_pack_item`: a nested list is packed (the `'[' … ':]'` wrapper
of `pack`, spelled out here so that the recursion is structural) and then
re-wrapped as an item; any other falsy item (`None`, the empty string)
becomes the payload `'null'`; the payload is preceded by its six-digit
length and a separator (`_ITEM_ENCODING % (len(str_item), _SEPARATOR,
str_item)`). -/
def packItem : Chunk → List Char
  | Chunk.str s =>
      let strItem := if s = [] then nullChars else s
      numEncode strItem.length ++ ':' :: strItem
  | Chunk.nil => numEncode nullChars.length ++ ':' :: nullChars
  | Chunk.list xs =>
      let packed := '[' :: (sepJoin (numEncode xs.length :: packItems xs) ++ [':', ']'])
      numEncode packed.length ++ ':' :: packed

/-- The `[_pack_item(item) for item in item_list]` comprehension. -/
def packItems : List Chunk → List (List Char)
  | [] => []
  | c :: rest => packItem c :: packItems rest

end

/-- Embeds `pack`: the item count and the packed items, joined by `':'`
and wrapped as `'[' … ':' ']'`. -/
def packList (xs : List Chunk) : List Char :=
  '[' :: (sepJoin (numEncode xs.length :: packItems xs) ++ [':', ']'])

/-- Embeds module-level `pack(item_list)`. -/
def pack (item_list : List Chunk) : List Char := packList item_list

theorem packItem_list (xs : List Chunk) :
    packItem (Chunk.list xs) = numEncode (packList xs).length ++ ':' :: packList xs := rfl

/-- Concatenation of the packed items, each followed by the separator:
the flat shape of everything after the count field in a packed list. -/
def itemsJoin (xs : List Chunk) : List Char :=
  (packItems xs).foldr (fun p acc => p ++ ':' :: acc) []

theorem sepJoin_flat (a : List Char) (rest : List (List Char)) :
    sepJoin (a :: rest) ++ [':'] = a ++ ':' :: rest.foldr (fun p acc => p ++ ':' :: acc) [] := by
  induction rest generalizing a with
  | nil => simp [sepJoin]
  | cons b bs ih =>
    rw [sepJoin]
    simp only [List.cons_append, List.append_assoc]
    rw [ih b]
    simp

theorem packList_flat (xs : List Chunk) :
    packList xs = '[' :: (numEncode xs.length ++ ':' :: (itemsJoin xs ++ [']'])) := by
  rw [packList, itemsJoin]
  have : (sepJoin (numEncode xs.length :: packItems xs) ++ [':']) ++ [']'] =
      sepJoin (numEncode xs.length :: packItems xs) ++ [':', ']'] := by simp
  rw [← this, sepJoin_flat]
  simp

theorem packItems_append (a b : List Chunk) :
    packItems (a ++ b) = packItems a ++ packItems b := by
  induction a with
  | nil => simp [packItems]
  | cons c rest ih => simp [packItems, ih]

theorem itemsJoin_append (a b : List Chunk) :
    itemsJoin (a ++ b) = itemsJoin a ++ itemsJoin b := by
  unfold itemsJoin
  rw [packItems_append, List.foldr_append]
  induction packItems a with
  | nil => simp
  | cons p ps ih => simp [ih]

theorem itemsJoin_cons (c : Chunk) (rest : List Chunk) :
    itemsJoin (c :: rest) = packItem c ++ ':' :: itemsJoin rest := by
  simp [itemsJoin, packItems]

/-! ## The codec parser `unpack` / `_unpack_chunk` -/

/-- Failure modes of `unpack`: the three `UnpackingError` cases of
`_is_chunk` / `_check_separator`, the `ValueError` a non-numeric length
field raises in `int()`, the `IndexError` of an out-of-range
`packed_chunk[pos]`, and the fuel artifact of the embedding (unreachable:
see `unpack`). -/
inductive UnpackErr where
  | noLeading
  | noTrailing
  | noSeparator (pos : Nat)
  | indexError (pos : Nat)
  | badNumber (pos : Nat)
  | outOfFuel
  deriving DecidableEq

/-- Embeds `_is_chunk`: `startswith('[') and endswith(']')`. -/
def isChunk (possible_chunk : List Char) : Bool :=
  possible_chunk.head? == some '[' && possible_chunk.getLast? == some ']'

/-- Embeds `_check_chunk` (`_is_chunk` with `raise_on_failure=True`),
distinguishing the no-leading-`[` and no-trailing-`]` errors. -/
def checkChunk (packed_chunk : List Char) : Except UnpackErr Unit :=
  if packed_chunk.head? == some '[' then
    if packed_chunk.getLast? == some ']' then Except.ok ()
    else Except.error UnpackErr.noTrailing
  else Except.error UnpackErr.noLeading

/-- A Python slice `s[pos:pos+len]` (for nonnegative bounds). -/
def pySlice (s : List Char) (pos len : Nat) : List Char := (s.drop pos).take len

/-- Embeds `int(packed_chunk[pos:pos + _NUMERIC_LENGTH])`: the numeric
fields are read as base-10 digit strings; a slice that is empty or holds
a non-digit raises `ValueError`. -/
def parseNumField (packed_chunk : List Char) (pos : Nat) : Except UnpackErr Nat :=
  let digits := pySlice packed_chunk pos 6
  if !digits.isEmpty && digits.all Char.isDigit then Except.ok (digitsToNat digits)
  else Except.error (UnpackErr.badNumber pos)

/-- Embeds `_check_separator`: `packed_chunk[pos]` must exist (else
`IndexError`) and be the `':'` separator. -/
def checkSep (packed_chunk : List Char) (pos : Nat) : Except UnpackErr Unit :=
  match (packed_chunk.drop pos).head? with
  | none => Except.error (UnpackErr.indexError pos)
  | some c => if c = ':' then Except.ok () else Except.error (UnpackErr.noSeparator pos)

/-- The control state of `_unpack_chunk`: either about to check and parse
a whole chunk, or inside the `for i in range(0, chunk_len)` loop with
`count` items left to read starting at position `pos`. -/
inductive UnpackJob where
  | chunk (packed : List Char)
  | items (packed : List Char) (count : Nat) (pos : Nat)

/-- Sequencing of fallible steps: a raised error propagates, otherwise
execution continues (Python exception flow). -/
def exSeq {α β : Type} : Except UnpackErr α → (α → Except UnpackErr β) → Except UnpackErr β
  | Except.error e, _ => Except.error e
  | Except.ok a, f => f a

theorem exSeq_ok {α β : Type} (a : α) (f : α → Except UnpackErr β) :
    exSeq (Except.ok a) f = f a := rfl

theorem exSeq_error {α β : Type} (e : UnpackErr) (f : α → Except UnpackErr β) :
    exSeq (Except.error e) f = Except.error e := rfl

/-- Embeds `_unpack_chunk`. The recursion of the Python source (recursive
descent plus a counted loop) is driven here by a structural fuel so that
the definition computes; `unpack` supplies fuel that is never exhausted.
Positions mirror the source: the chunk length field sits at position 1,
its separator at 7, the first item at 8; an item's length field sits at
`pos`, its separator at `pos + 6`, its payload at `pos + 7`, the payload's
trailing separator at `pos + 7 + item_len`. -/
def unpackF : Nat → UnpackJob → Except UnpackErr (List Chunk)
  | 0, _ => Except.error UnpackErr.outOfFuel
  | fuel + 1, UnpackJob.chunk packed =>
    exSeq (checkChunk packed) (fun _ =>
    exSeq (parseNumField packed 1) (fun chunk_len =>
    exSeq (checkSep packed 7) (fun _ =>
    unpackF fuel (UnpackJob.items packed chunk_len 8))))
  | _fuel + 1, UnpackJob.items _ 0 _ => Except.ok []
  | fuel + 1, UnpackJob.items packed (count + 1) pos =>
    exSeq (parseNumField packed pos) (fun item_len =>
    exSeq (checkSep packed (pos + 6)) (fun _ =>
    exSeq (checkSep packed (pos + 7 + item_len)) (fun _ =>
    exSeq (if isChunk (pySlice packed (pos + 7) item_len) then
             exSeq (unpackF fuel (UnpackJob.chunk (pySlice packed (pos + 7) item_len)))
               (fun sub_chunk => Except.ok (Chunk.list sub_chunk))
           else Except.ok (Chunk.str (pySlice packed (pos + 7) item_len))) (fun c =>
    exSeq (unpackF fuel (UnpackJob.items packed count (pos + 7 + item_len + 1))) (fun rest =>
    Except.ok (c :: rest))))))

/-- Embeds module-level `unpack(packed_string)`. The fuel bounds the number
of recursive steps of `_unpack_chunk`: one chunk job makes at most
`1000001` item steps (its count field has at most six digits) plus one,
and every nested chunk is a strict substring, so on a string of length
`L` at most `(L + 2) * 1000002` steps ever run and `outOfFuel` is
unreachable. -/
def unpack (packed_string : List Char) : Except UnpackErr (List Chunk) :=
  unpackF ((packed_string.length + 2) * 1000002) (UnpackJob.chunk packed_string)

/-! ## Well-formed nested lists and the round-trip proof -/

mutual

/-- A chunk that survives the round trip: a nonempty string that is not
itself shaped like a packed chunk and whose length fits the six-digit
field, or a nested list whose count and packed length fit the six-digit
fields. -/
def wfChunk : Chunk → Bool
  | Chunk.str s =>
      !s.isEmpty && !isChunk s && decide (s.length < 1000000)
  | Chunk.nil => false
  | Chunk.list xs =>
      decide (xs.length < 1000000) && decide ((packList xs).length < 1000000) && wfList xs

def wfList : List Chunk → Bool
  | [] => true
  | c :: rest => wfChunk c && wfList rest

end

/-- A well-formed top-level item list: the item count fits the six-digit
field and every item is well formed. -/
def wfItems (xs : List Chunk) : Bool :=
  decide (xs.length < 1000000) && wfList xs

mutual

/-- Fuel needed by `unpackF` for the chunk job of one packed item. -/
def itemFuel : Chunk → Nat
  | Chunk.str _ => 0
  | Chunk.nil => 0
  | Chunk.list ys => 1 + listFuel ys

/-- Fuel needed by `unpackF` for the items job of a packed list. -/
def listFuel : List Chunk → Nat
  | [] => 1
  | c :: rest => 1 + itemFuel c + listFuel rest

end

/-- The payload of a packed item, as `_pack_item` computes it. -/
def itemPayload : Chunk → List Char
  | Chunk.str s => if s = [] then nullChars else s
  | Chunk.nil => nullChars
  | Chunk.list xs => packList xs

theorem packItem_eq_payload (c : Chunk) :
    packItem c = numEncode (itemPayload c).length ++ ':' :: itemPayload c := by
  cases c with
  | str s =>
    by_cases h : s = [] <;> simp [packItem, itemPayload, h]
  | nil => simp [packItem, itemPayload]
  | list xs => simp [packItem_list, itemPayload, packList]

theorem packList_head (xs : List Chunk) :
    packList xs = '[' :: (numEncode xs.length ++ ':' :: (itemsJoin xs ++ [']'])) :=
  packList_flat xs

theorem isChunk_packList (xs : List Chunk) : isChunk (packList xs) = true := by
  rw [packList_flat, isChunk]
  have h1 : ('[' :: (numEncode xs.length ++ ':' :: (itemsJoin xs ++ [']']))).head? = some '[' := rfl
  have h2 : ('[' :: (numEncode xs.length ++ ':' :: (itemsJoin xs ++ [']']))).getLast? = some ']' := by
    have : '[' :: (numEncode xs.length ++ ':' :: (itemsJoin xs ++ [']'])) =
        ('[' :: (numEncode xs.length ++ ':' :: itemsJoin xs)) ++ [']'] := by simp
    rw [this, List.getLast?_concat]
  rw [h1, h2]
  rfl

theorem checkChunk_packList (xs : List Chunk) :
    checkChunk (packList xs) = Except.ok () := by
  have h := isChunk_packList xs
  rw [isChunk, Bool.and_eq_true] at h
  rw [checkChunk, if_pos h.1, if_pos h.2]

/-- Shape of the suffix of a packed string at an item boundary: length
field, separator, payload, separator, rest. -/
def itemShape (packed : List Char) (pos : Nat) (payload rest : List Char) : Prop :=
  packed.drop pos = numEncode payload.length ++ ':' :: (payload ++ ':' :: rest)

theorem parseNumField_of_shape {packed : List Char} {pos : Nat} {payload rest : List Char}
    (h : itemShape packed pos payload rest) (hlen : payload.length < 1000000) :
    parseNumField packed pos = Except.ok payload.length := by
  have hE : (numEncode payload.length).length = 6 := numEncode_length hlen
  have hslice : pySlice packed pos 6 = numEncode payload.length := by
    rw [pySlice, h, ← hE, List.take_left]
  rw [parseNumField]
  simp only [hslice]
  have hne : (numEncode payload.length).isEmpty = false := by
    cases he : numEncode payload.length with
    | nil => rw [he] at hE; simp at hE
    | cons a l => simp [List.isEmpty]
  rw [if_pos]
  · rw [digitsToNat_numEncode]
  · rw [hne, numEncode_all_digit]
    rfl

theorem drop_six_of_shape {packed : List Char} {pos : Nat} {payload rest : List Char}
    (h : itemShape packed pos payload rest) (hlen : payload.length < 1000000) :
    packed.drop (pos + 6) = ':' :: (payload ++ ':' :: rest) := by
  have hE : (numEncode payload.length).length = 6 := numEncode_length hlen
  rw [← List.drop_drop, h, ← hE, List.drop_left]

theorem checkSep_six_of_shape {packed : List Char} {pos : Nat} {payload rest : List Char}
    (h : itemShape packed pos payload rest) (hlen : payload.length < 1000000) :
    checkSep packed (pos + 6) = Except.ok () := by
  rw [checkSep, drop_six_of_shape h hlen]
  simp

theorem drop_seven_of_shape {packed : List Char} {pos : Nat} {payload rest : List Char}
    (h : itemShape packed pos payload rest) (hlen : payload.length < 1000000) :
    packed.drop (pos + 7) = payload ++ ':' :: rest := by
  have h6 := drop_six_of_shape h hlen
  have : packed.drop (pos + 7) = (packed.drop (pos + 6)).drop 1 := by
    rw [List.drop_drop]
  rw [this, h6]
  rfl

theorem slice_payload_of_shape {packed : List Char} {pos : Nat} {payload rest : List Char}
    (h : itemShape packed pos payload rest) (hlen : payload.length < 1000000) :
    pySlice packed (pos + 7) payload.length = payload := by
  rw [pySlice, drop_seven_of_shape h hlen, List.take_left]

theorem checkSep_payload_of_shape {packed : List Char} {pos : Nat} {payload rest : List Char}
    (h : itemShape packed pos payload rest) (hlen : payload.length < 1000000) :
    checkSep packed (pos + 7 + payload.length) = Except.ok () := by
  have h7 := drop_seven_of_shape h hlen
  have : packed.drop (pos + 7 + payload.length) = (packed.drop (pos + 7)).drop payload.length := by
    rw [List.drop_drop]
  rw [checkSep, this, h7, List.drop_left]
  simp

theorem drop_next_of_shape {packed : List Char} {pos : Nat} {payload rest : List Char}
    (h : itemShape packed pos payload rest) (hlen : payload.length < 1000000) :
    packed.drop (pos + 7 + payload.length + 1) = rest := by
  have h7 := drop_seven_of_shape h hlen
  have hstep : packed.drop (pos + 7 + payload.length) = ':' :: rest := by
    have : packed.drop (pos + 7 + payload.length) = (packed.drop (pos + 7)).drop payload.length := by
      rw [List.drop_drop]
    rw [this, h7, List.drop_left]
  have : packed.drop (pos + 7 + payload.length + 1) =
      (packed.drop (pos + 7 + payload.length)).drop 1 := by
    rw [List.drop_drop]
  rw [this, hstep]
  rfl

theorem wfItems_spec {xs : List Chunk} (h : wfItems xs = true) :
    xs.length < 1000000 ∧ wfList xs = true := by
  rw [wfItems, Bool.and_eq_true, decide_eq_true_iff] at h
  exact h

theorem wfList_cons {c : Chunk} {rest : List Chunk} (h : wfList (c :: rest) = true) :
    wfChunk c = true ∧ wfList rest = true := by
  rw [wfList, Bool.and_eq_true] at h
  exact h

theorem wfChunk_str {s : List Char} (h : wfChunk (Chunk.str s) = true) :
    s ≠ [] ∧ isChunk s = false ∧ s.length < 1000000 := by
  rw [wfChunk, Bool.and_eq_true, Bool.and_eq_true] at h
  obtain ⟨⟨h1, h2⟩, h3⟩ := h
  refine ⟨?_, ?_, ?_⟩
  · intro he
    subst he
    simp at h1
  · cases hiv : isChunk s
    · rfl
    · rw [hiv] at h2; simp at h2
  · exact decide_eq_true_iff.mp h3

theorem wfChunk_list {ys : List Chunk} (h : wfChunk (Chunk.list ys) = true) :
    ys.length < 1000000 ∧ (packList ys).length < 1000000 ∧ wfList ys = true := by
  rw [wfChunk, Bool.and_eq_true, Bool.and_eq_true] at h
  obtain ⟨⟨h1, h2⟩, h3⟩ := h
  exact ⟨decide_eq_true_iff.mp h1, decide_eq_true_iff.mp h2, h3⟩

theorem itemPayload_length_lt {c : Chunk} (h : wfChunk c = true) :
    (itemPayload c).length < 1000000 := by
  cases c with
  | str s =>
    obtain ⟨h1, _, h3⟩ := wfChunk_str h
    rw [itemPayload, if_neg h1]
    exact h3
  | nil => rw [wfChunk] at h; simp at h
  | list ys =>
    obtain ⟨_, h2, _⟩ := wfChunk_list h
    rw [itemPayload]
    exact h2

/-- Main round-trip induction: with enough fuel, `_unpack_chunk` inverts
`pack` on well-formed item lists, both at the whole-chunk level and at
every intermediate state of the item loop. -/
theorem unpackF_roundtrip (fuel : Nat) :
    (∀ xs, wfItems xs = true → 1 + listFuel xs ≤ fuel →
      unpackF fuel (UnpackJob.chunk (packList xs)) = Except.ok xs)
    ∧ (∀ xs packed pos tail, packed.drop pos = itemsJoin xs ++ tail →
        wfList xs = true → listFuel xs ≤ fuel →
        unpackF fuel (UnpackJob.items packed xs.length pos) = Except.ok xs) := by
  induction fuel using Nat.strong_induction_on with
  | _ fuel ih =>
    constructor
    · intro xs hwf hfuel
      obtain ⟨hcount, hwl⟩ := wfItems_spec hwf
      cases fuel with
      | zero => omega
      | succ f =>
        have hdrop1 : (packList xs).drop 1 = numEncode xs.length ++ ':' :: (itemsJoin xs ++ [']']) := by
          rw [packList_head]
          rfl
        have hE : (numEncode xs.length).length = 6 := numEncode_length hcount
        have hparse : parseNumField (packList xs) 1 = Except.ok xs.length := by
          rw [parseNumField]
          have hslice : pySlice (packList xs) 1 6 = numEncode xs.length := by
            rw [pySlice, hdrop1, ← hE, List.take_left]
          simp only [hslice]
          have hne : (numEncode xs.length).isEmpty = false := by
            cases he : numEncode xs.length with
            | nil => rw [he] at hE; simp at hE
            | cons a l => simp [List.isEmpty]
          rw [if_pos]
          · rw [digitsToNat_numEncode]
          · rw [hne, numEncode_all_digit]
            rfl
        have hsep7 : checkSep (packList xs) 7 = Except.ok () := by
          have : (packList xs).drop 7 = ':' :: (itemsJoin xs ++ [']']) := by
            have h17 : (7 : Nat) = 1 + 6 := by omega
            rw [h17, ← List.drop_drop, hdrop1, ← hE, List.drop_left]
          rw [checkSep, this]
          simp
        have hdrop8 : (packList xs).drop 8 = itemsJoin xs ++ [']'] := by
          have h18 : (8 : Nat) = 7 + 1 := by omega
          have h7 : (packList xs).drop 7 = ':' :: (itemsJoin xs ++ [']']) := by
            have h17 : (7 : Nat) = 1 + 6 := by omega
            rw [h17, ← List.drop_drop, hdrop1, ← hE, List.drop_left]
          rw [h18, ← List.drop_drop, h7]
          rfl
        rw [unpackF]
        simp only [checkChunk_packList, hparse, hsep7, exSeq_ok]
        exact (ih f (by omega)).2 xs (packList xs) 8 [']'] hdrop8 hwl (by omega)
    · intro xs packed pos tail hdrop hwl hfuel
      cases xs with
      | nil =>
        cases fuel with
        | zero => rw [listFuel] at hfuel; omega
        | succ f => rw [List.length_nil, unpackF]
      | cons c rest =>
        have hlf : listFuel (c :: rest) = 1 + itemFuel c + listFuel rest := by rw [listFuel]
        cases fuel with
        | zero => omega
        | succ f =>
          have hfc : itemFuel c ≤ f := by omega
          have hfr : listFuel rest ≤ f := by omega
          obtain ⟨hwc, hwr⟩ := wfList_cons hwl
          have hshape : itemShape packed pos (itemPayload c) (itemsJoin rest ++ tail) := by
            rw [itemShape, hdrop, itemsJoin_cons, packItem_eq_payload]
            simp
          have hPlen : (itemPayload c).length < 1000000 := itemPayload_length_lt hwc
          have hparse := parseNumField_of_shape hshape hPlen
          have hsep6 := checkSep_six_of_shape hshape hPlen
          have hslice := slice_payload_of_shape hshape hPlen
          have hsepP := checkSep_payload_of_shape hshape hPlen
          have hnext := drop_next_of_shape hshape hPlen
          have hrest := (ih f (by omega)).2 rest packed (pos + 7 + (itemPayload c).length + 1)
            tail hnext hwr hfr
          rw [List.length_cons, unpackF]
          simp only [hparse, hsep6, hslice, hsepP, exSeq_ok]
          cases c with
          | str s =>
            obtain ⟨hs1, hs2, _⟩ := wfChunk_str hwc
            have hpay : itemPayload (Chunk.str s) = s := by rw [itemPayload, if_neg hs1]
            rw [hpay] at hrest ⊢
            simp [hs2, hrest, exSeq_ok]
          | nil => rw [wfChunk] at hwc; simp at hwc
          | list ys =>
            obtain ⟨hy1, hy2, hy3⟩ := wfChunk_list hwc
            have hpay : itemPayload (Chunk.list ys) = packList ys := rfl
            have hsub : unpackF f (UnpackJob.chunk (packList ys)) = Except.ok ys := by
              refine (ih f (by omega)).1 ys ?_ ?_
              · rw [wfItems, Bool.and_eq_true, decide_eq_true_iff]
                exact ⟨hy1, hy3⟩
              · have : itemFuel (Chunk.list ys) = 1 + listFuel ys := by rw [itemFuel]
                omega
            rw [hpay] at hrest ⊢
            simp [isChunk_packList, hsub, hrest, exSeq_ok]

theorem numEncode_length_ge (n : Nat) : 6 ≤ (numEncode n).length := by
  rw [numEncode, List.length_append, List.length_replicate]
  omega

theorem packItem_length (c : Chunk) :
    (packItem c).length = (numEncode (itemPayload c).length).length + 1 + (itemPayload c).length := by
  rw [packItem_eq_payload, List.length_append, List.length_cons]
  omega

mutual

theorem itemFuel_le : ∀ c : Chunk, itemFuel c ≤ (packItem c).length
  | Chunk.str s => by rw [itemFuel]; omega
  | Chunk.nil => by rw [itemFuel]; omega
  | Chunk.list ys => by
    have h := listFuel_le_aux ys
    have hp : itemPayload (Chunk.list ys) = packList ys := rfl
    have hgen := numEncode_length_ge (itemPayload (Chunk.list ys)).length
    have hlenp : (packList ys).length = 3 + (numEncode ys.length).length + (itemsJoin ys).length := by
      rw [packList_flat]
      simp [List.length_append]
      omega
    have hge := numEncode_length_ge ys.length
    rw [itemFuel, packItem_length, hp]
    omega

theorem listFuel_le_aux : ∀ xs : List Chunk, listFuel xs ≤ 9 + (itemsJoin xs).length
  | [] => by rw [listFuel]; omega
  | c :: rest => by
    have h1 := itemFuel_le c
    have h2 := listFuel_le_aux rest
    have h3 : (itemsJoin (c :: rest)).length = (packItem c).length + 1 + (itemsJoin rest).length := by
      rw [itemsJoin_cons, List.length_append, List.length_cons]
      omega
    rw [listFuel]
    omega

end

theorem listFuel_le (xs : List Chunk) : listFuel xs ≤ (packList xs).length := by
  have h1 := listFuel_le_aux xs
  have h2 : (packList xs).length = 3 + (numEncode xs.length).length + (itemsJoin xs).length := by
    rw [packList_flat]
    simp [List.length_append]
    omega
  have h3 := numEncode_length_ge xs.length
  omega

/-- The packed outputs of `pack` always fit within the fuel `unpack`
supplies. -/
theorem unpack_fuel_enough (xs : List Chunk) :
    1 + listFuel xs ≤ ((packList xs).length + 2) * 1000002 := by
  have h := listFuel_le xs
  omega

/-- Round trip on well-formed item lists: the content of the amended C1. -/
theorem unpack_pack (xs : List Chunk) (h : wfItems xs = true) :
    unpack (pack xs) = Except.ok xs := by
  rw [pack, unpack]
  exact (unpackF_roundtrip _).1 xs h (unpack_fuel_enough xs)

/-! ## UTF-8 byte encoding and the version banner -/

/-- UTF-8 encoding of one code point, as a list of byte values. -/
def utf8EncodeChar (c : Char) : List Nat :=
  let v := c.toNat
  if v ≤ 0x7F then [v]
  else if v ≤ 0x7FF then [0xC0 + v / 64, 0x80 + v % 64]
  else if v ≤ 0xFFFF then [0xE0 + v / 4096, 0x80 + v / 64 % 64, 0x80 + v % 64]
  else [0xF0 + v / 262144, 0x80 + v / 4096 % 64, 0x80 + v / 64 % 64, 0x80 + v % 64]

/-- UTF-8 encoding of a text (`text.encode('utf-8')` in Python). -/
def utf8Encode (t : List Char) : List Nat := (t.map utf8EncodeChar).flatten

/-- A Python 2 byte string holding the given byte values, in the chars-as-
bytes reading of `List Char`. -/
def byteStr (bs : List Nat) : List Char := bs.map Char.ofNat

theorem utf8EncodeChar_length (c : Char) : (utf8EncodeChar c).length = c.utf8Size := by
  have hb1 : (c.val ≤ UInt32.ofNatCore 0x7F (by decide)) ↔ c.toNat ≤ 0x7F :=
    Iff.intro (fun h => h) (fun h => h)
  have hb2 : (c.val ≤ UInt32.ofNatCore 0x7FF (by decide)) ↔ c.toNat ≤ 0x7FF :=
    Iff.intro (fun h => h) (fun h => h)
  have hb3 : (c.val ≤ UInt32.ofNatCore 0xFFFF (by decide)) ↔ c.toNat ≤ 0xFFFF :=
    Iff.intro (fun h => h) (fun h => h)
  rw [utf8EncodeChar, Char.utf8Size]
  by_cases h1 : c.toNat ≤ 0x7F
  · rw [if_pos h1, if_pos (hb1.mpr h1)]
    rfl
  · rw [if_neg h1, if_neg (fun hc => h1 (hb1.mp hc))]
    by_cases h2 : c.toNat ≤ 0x7FF
    · rw [if_pos h2, if_pos (hb2.mpr h2)]
      rfl
    · rw [if_neg h2, if_neg (fun hc => h2 (hb2.mp hc))]
      by_cases h3 : c.toNat ≤ 0xFFFF
      · rw [if_pos h3, if_pos (hb3.mpr h3)]
        rfl
      · rw [if_neg h3, if_neg (fun hc => h3 (hb3.mp hc))]
        rfl

theorem utf8Encode_length (t : List Char) :
    (utf8Encode t).length = (t.map Char.utf8Size).sum := by
  rw [utf8Encode, List.length_flatten, List.map_map]
  congr 1
  apply List.map_congr_left
  intro c _
  exact utf8EncodeChar_length c

theorem utf8Encode_ne_nil {t : List Char} (h : t ≠ []) : utf8Encode t ≠ [] := by
  intro he
  apply h
  have hlen := utf8Encode_length t
  rw [he] at hlen
  cases t with
  | nil => rfl
  | cons c rest =>
    simp only [List.map_cons, List.sum_cons, List.length_nil] at hlen
    have := c.utf8Size_pos
    omega

/-- The version banner `_VERSION` of `waferslim/protocol.py`. -/
def _VERSION : String := "Slim -- V0.0\n"

/-- The bytes `RequestResponder._send_ack` writes: `_VERSION.encode('utf-8')`
with the default `byte_encoding`. -/
def sendAckBytes : List Nat := utf8Encode _VERSION.data

/-! ## Claim C1 — codec round trip -/

/-- C1 counterexample: the claim `unpack(pack(xs)) = xs` for *every* finite
nested list of strings fails at `xs = [""]`, because `_pack_item` encodes
the falsy empty string as the payload `'null'`, which `unpack` returns as
the string `"null"`. -/
theorem C1_counterexample : unpack (pack [Chunk.str []]) ≠ Except.ok [Chunk.str []] := by
  have h : unpack (pack [Chunk.str []]) = Except.ok [Chunk.str nullChars] := by rfl
  rw [h]
  intro he
  rw [Except.ok.injEq, List.cons.injEq, Chunk.str.injEq] at he
  exact List.cons_ne_nil _ _ he.1

/-- C1 (amended): `unpack (pack xs) = xs` for every finite nested list of
strings in which every string is nonempty, no string both starts with `'['`
and ends with `']'`, and every item count, string length and packed-sublist
length fits the six-digit field (is `< 10^6`). -/
theorem C1_unpack_pack_roundtrip (xs : List Chunk) (h : wfItems xs = true) :
    unpack (pack xs) = Except.ok xs :=
  unpack_pack xs h

theorem C1_unpack_pack_roundtrip_witness :
    wfItems [Chunk.str "hello".data, Chunk.list [Chunk.str "element".data]] = true ∧
    unpack (pack [Chunk.str "hello".data, Chunk.list [Chunk.str "element".data]]) =
      Except.ok [Chunk.str "hello".data, Chunk.list [Chunk.str "element".data]] :=
  ⟨by decide, C1_unpack_pack_roundtrip _ (by decide)⟩

/-! ## Claim C10 — the empty string packs as `'null'` -/

theorem pack_congr_item (pre post : List Chunk) {c d : Chunk}
    (h : packItem c = packItem d) :
    pack (pre ++ c :: post) = pack (pre ++ d :: post) := by
  rw [pack, pack, packList, packList]
  have hlen : (pre ++ c :: post).length = (pre ++ d :: post).length := by
    simp
  have hitems : packItems (pre ++ c :: post) = packItems (pre ++ d :: post) := by
    rw [packItems_append, packItems_append, packItems, packItems, h]
  rw [hlen, hitems]

/-- C10: `pack` encodes an empty-string item exactly like a `None` item and
like the four-letter string `"null"`; consequently `unpack` of the packed
list returns `"null"` at that position (stated for surrounding items that
are themselves well formed). -/
theorem C10_empty_string_packs_as_null (pre post : List Chunk)
    (h : wfItems (pre ++ Chunk.str nullChars :: post) = true) :
    pack (pre ++ Chunk.str [] :: post) = pack (pre ++ Chunk.nil :: post) ∧
    pack (pre ++ Chunk.str [] :: post) = pack (pre ++ Chunk.str nullChars :: post) ∧
    unpack (pack (pre ++ Chunk.str [] :: post)) =
      Except.ok (pre ++ Chunk.str nullChars :: post) := by
  refine ⟨pack_congr_item pre post rfl, pack_congr_item pre post rfl, ?_⟩
  rw [pack_congr_item pre post (c := Chunk.str []) (d := Chunk.str nullChars) rfl]
  exact unpack_pack _ h

theorem C10_empty_string_packs_as_null_witness :
    wfItems [Chunk.str nullChars] = true ∧
    pack [Chunk.str []] = pack [Chunk.nil] ∧
    unpack (pack [Chunk.str []]) = Except.ok [Chunk.str nullChars] := by
  have h := C10_empty_string_packs_as_null [] [] (by decide)
  exact ⟨by decide, h.1, h.2.2⟩

/-! ## Claim C5 — item length fields count bytes -/

/-- C5: the six-digit length written by `_pack_item` in front of a byte
string payload equals the UTF-8 byte count of the text the payload
encodes — `len(str_item)` on a Python 2 byte string counts its bytes —
and not the character count of that text. -/
theorem C5_item_length_counts_utf8_bytes (t : List Char) (h : t ≠ []) :
    packItem (Chunk.str (byteStr (utf8Encode t))) =
      numEncode ((t.map Char.utf8Size).sum) ++ ':' :: byteStr (utf8Encode t) := by
  have hne : byteStr (utf8Encode t) ≠ [] := by
    rw [byteStr]
    intro he
    exact utf8Encode_ne_nil h (List.map_eq_nil_iff.mp he)
  have hlen : (byteStr (utf8Encode t)).length = (t.map Char.utf8Size).sum := by
    rw [byteStr, List.length_map, utf8Encode_length]
  rw [packItem]
  simp only [if_neg hne]
  rw [hlen]

theorem C5_item_length_counts_utf8_bytes_witness :
    packItem (Chunk.str (byteStr (utf8Encode ['S', 'é']))) =
      numEncode ((['S', 'é'].map Char.utf8Size).sum) ++ ':' :: byteStr (utf8Encode ['S', 'é']) ∧
    (['S', 'é'].map Char.utf8Size).sum = 3 ∧
    ['S', 'é'].length = 2 :=
  ⟨C5_item_length_counts_utf8_bytes ['S', 'é'] (by decide), by decide, by decide⟩

/-! ## Claim C9 — the version banner -/

/-- C9 counterexample: the UTF-8 encoding of the banner `'Slim -- V0.0\n'`
is not 14 bytes long (it is 13). -/
theorem C9_counterexample : sendAckBytes.length ≠ 14 := by decide

/-- C9 (amended): on accepting a connection the responder sends exactly the
unframed banner `'Slim -- V0.0\n'`, whose UTF-8 encoding is 13 bytes
long. -/
theorem C9_banner_is_13_bytes :
    _VERSION.data = ['S', 'l', 'i', 'm', ' ', '-', '-', ' ', 'V', '0', '.', '0', '\n'] ∧
    sendAckBytes.length = 13 := by
  constructor
  · decide
  · decide

/-! ## The instruction engine (`execution.py`) and converters -/

def _OK : String := "OK"

def _EXCEPTION : String := "__EXCEPTION__:"

def _STOP_TEST : String := _EXCEPTION ++ "ABORT_SLIM_TEST:"

def _NONE_STRING : String := "/__VOID__/"

/-- ASCII lowering of a Python string (`str.lower()` on the ASCII range). -/
def pyLower (s : String) : String := String.mk (s.data.map Char.toLower)

/-- Whether `s` starts with the pattern, over character lists. -/
def startsWithChars : List Char → List Char → Bool
  | _, [] => true
  | [], _ :: _ => false
  | c :: s, p :: ps => c == p && startsWithChars s ps

/-- Substring containment over character lists. -/
def containsSub : List Char → List Char → Bool
  | [], pat => pat.isEmpty
  | c :: rest, pat => startsWithChars (c :: rest) pat || containsSub rest pat

/-- Python's `pat in s` on strings. -/
def pyContains (s pat : String) : Bool := containsSub s.data pat.data

/-- Python values relevant to the engine's result and symbol handling. -/
inductive PyVal where
  | none
  | str (s : String)
  | bool (b : Bool)
  | int (n : Int)
  deriving DecidableEq

namespace TrueFalseConverter

/-- Embeds `TrueFalseConverter.from_string`: `value.lower() == 'true'`. -/
def from_string (value : String) : Bool := pyLower value == "true"

/-- Embeds `TrueFalseConverter.to_string`:
`value == True and 'true' or 'false'`. -/
def to_string (value : Bool) : String := if value == true then "true" else "false"

end TrueFalseConverter

/-- Embeds `converters.to_string`, the `converter_for(value)` dispatch on
the registered default converters, restricted to the `PyVal` values: a
`str` is returned unchanged (`Converter.to_string` for string instances /
`StrConverter`), a bool goes through the registered `TrueFalseConverter`,
an int through `FromConstructorConverter(int)` whose inherited
`to_string` is `str(value)`, and `None` falls back to the base
converter's `str(None)`. -/
def to_string : PyVal → String
  | PyVal.str s => s
  | PyVal.bool b => TrueFalseConverter.to_string b
  | PyVal.int n => toString n
  | PyVal.none => "None"

/-- Argument of `Results.completed`: the default sentinel
`NO_RESULT_EXPECTED` or an actual returned value. -/
inductive CallResult where
  | noResultExpected
  | value (v : PyVal)
  deriving DecidableEq

namespace Results

/-- Embeds `Results.completed`: the sentinel reports `OK`, a `None` result
reports `/__VOID__/`, anything else is converted to a string; one row
`[id, outcome]` is appended to the collected results. -/
def completed (collected : List (List String)) (instruction_id : String) :
    CallResult → List (List String)
  | CallResult.noResultExpected => collected ++ [[instruction_id, _OK]]
  | CallResult.value PyVal.none => collected ++ [[instruction_id, _NONE_STRING]]
  | CallResult.value v => collected ++ [[instruction_id, to_string v]]

/-- Embeds `Results.failed`:
`failed_type = stop_test and _STOP_TEST or _EXCEPTION` and the row
`[id, '%s message:<<%s>>' % (failed_type, cause)]` is appended. -/
def failed (collected : List (List String)) (instruction_id : String)
    (cause : String) (stop_test : Bool) : List (List String) :=
  let failed_type := if stop_test then _STOP_TEST else _EXCEPTION
  collected ++ [[instruction_id, failed_type ++ " message:<<" ++ cause ++ ">>"]]

end Results

/-- Observable behaviour of one instruction's `execute`: it either
completes normally, appending rows to the results itself, or raises an
exception whose type name is `excName` and whose `args[0]` is `arg`. -/
inductive Outcome where
  | completes (rows : List (List String))
  | raises (excName : String) (arg : String)
  deriving DecidableEq

/-- Embeds the loop of `Instructions.execute`: each instruction runs in
order; on an exception, `stop_test = 'stoptest' in type(error).__name__.lower()`
decides the failure row and, when true, breaks out of the batch. -/
def executeLoop : List (String × Outcome) → List (List String) → List (List String)
  | [], collected => collected
  | (_, Outcome.completes rows) :: rest, collected => executeLoop rest (collected ++ rows)
  | (instruction_id, Outcome.raises excName arg) :: rest, collected =>
    let stop_test := pyContains (pyLower excName) "stoptest"
    if stop_test then Results.failed collected instruction_id arg stop_test
    else executeLoop rest (Results.failed collected instruction_id arg stop_test)

/-- Embeds `Instructions.execute` on a fresh results collector. -/
def Instructions.execute (items : List (String × Outcome)) : List (List String) :=
  executeLoop items []

/-- Whether an instruction's outcome is an abort (a raised exception whose
type name contains `stoptest`, case-insensitively). -/
def aborts : String × Outcome → Bool
  | (_, Outcome.raises excName _) => pyContains (pyLower excName) "stoptest"
  | (_, Outcome.completes _) => false

theorem executeLoop_acc (items : List (String × Outcome)) (collected : List (List String)) :
    executeLoop items collected = collected ++ executeLoop items [] := by
  induction items generalizing collected with
  | nil => simp [executeLoop]
  | cons i rest ih =>
    obtain ⟨iid, out⟩ := i
    cases out with
    | completes rows =>
      rw [executeLoop, executeLoop, ih (collected ++ rows), ih ([] ++ rows)]
      simp
    | raises e a =>
      cases hst : pyContains (pyLower e) "stoptest" with
      | true =>
        simp only [executeLoop, hst, if_true, Results.failed]
        simp
      | false =>
        simp only [executeLoop, hst, Bool.false_eq_true, if_false, Results.failed]
        rw [ih, ih]
        simp
        conv_rhs => rw [ih]
        simp

/-! ## Claim C4 — failure rows, aborts and batch sequencing -/

/-- C4: when an instruction raises, the appended failure row carries the
`ABORT_SLIM_TEST:` infix exactly when the exception's type name contains
the case-insensitive substring `stoptest`; on an abort the remaining
instructions are skipped while the earlier results are kept, and on a
non-abort failure execution continues in order. -/
theorem C4_abort_semantics (pre : List (String × Outcome)) (iid excName arg : String)
    (rest : List (String × Outcome)) (hpre : ∀ i ∈ pre, aborts i = false) :
    Instructions.execute (pre ++ (iid, Outcome.raises excName arg) :: rest) =
      Instructions.execute pre
        ++ [[iid, (if pyContains (pyLower excName) "stoptest" then _STOP_TEST
                   else _EXCEPTION) ++ " message:<<" ++ arg ++ ">>"]]
        ++ (if pyContains (pyLower excName) "stoptest" then []
            else Instructions.execute rest) := by
  induction pre with
  | nil =>
    rw [Instructions.execute, List.nil_append, executeLoop]
    cases hst : pyContains (pyLower excName) "stoptest" with
    | true =>
      simp only [hst, if_true, Results.failed, Instructions.execute, executeLoop]
      simp
    | false =>
      simp only [hst, Bool.false_eq_true, if_false, Results.failed, Instructions.execute]
      rw [executeLoop_acc]
      simp [executeLoop]
  | cons i pre' ih =>
    have hi : aborts i = false := hpre i (by simp)
    have hpre' : ∀ j ∈ pre', aborts j = false := fun j hj => hpre j (by simp [hj])
    have ih' := ih hpre'
    obtain ⟨jid, out⟩ := i
    cases out with
    | completes rows =>
      rw [Instructions.execute, List.cons_append, executeLoop, executeLoop_acc,
          ← Instructions.execute, ih']
      conv_rhs => rw [Instructions.execute, executeLoop, executeLoop_acc,
        ← Instructions.execute]
      simp
    | raises e a =>
      have hst : pyContains (pyLower e) "stoptest" = false := by
        rw [aborts] at hi
        exact hi
      rw [Instructions.execute, List.cons_append, executeLoop]
      simp only [hst, Bool.false_eq_true, if_false]
      rw [executeLoop_acc, ← Instructions.execute, ih']
      conv_rhs => rw [Instructions.execute, executeLoop]
      simp only [hst, Bool.false_eq_true, if_false]
      conv_rhs => rw [executeLoop_acc, ← Instructions.execute]
      simp [Results.failed]

theorem C4_abort_semantics_witness :
    (∀ i ∈ [("i1", Outcome.completes [["i1", "OK"]])], aborts i = false) ∧
    Instructions.execute
      [("i1", Outcome.completes [["i1", "OK"]]),
       ("i2", Outcome.raises "StopTestException" "boom"),
       ("i3", Outcome.completes [["i3", "OK"]])] =
      [["i1", "OK"], ["i2", "__EXCEPTION__:ABORT_SLIM_TEST: message:<<boom>>"]] ∧
    Instructions.execute
      [("i1", Outcome.completes [["i1", "OK"]]),
       ("i2", Outcome.raises "TypeError" "oops"),
       ("i3", Outcome.completes [["i3", "OK"]])] =
      [["i1", "OK"], ["i2", "__EXCEPTION__: message:<<oops>>"], ["i3", "OK"]] := by
  refine ⟨by decide, ?_, ?_⟩
  · have h := C4_abort_semantics [("i1", Outcome.completes [["i1", "OK"]])] "i2"
      "StopTestException" "boom" [("i3", Outcome.completes [["i3", "OK"]])] (by decide)
    simp only [List.cons_append, List.nil_append] at h
    rw [h]
    decide
  · have h := C4_abort_semantics [("i1", Outcome.completes [["i1", "OK"]])] "i2"
      "TypeError" "oops" [("i3", Outcome.completes [["i3", "OK"]])] (by decide)
    simp only [List.cons_append, List.nil_append] at h
    rw [h]
    decide

/-! ## Claim C6 — void versus string returns -/

/-- C6: `Results.completed` appends `[id, "OK"]` when no result is
expected, `[id, "/__VOID__/"]` when the returned value is `None`, and
`[id, to_string v]` for any other value; in particular a returned empty
string yields `[id, ""]`, which differs from the `None` row. -/
theorem C6_completed_semantics (collected : List (List String)) (instruction_id : String) :
    Results.completed collected instruction_id CallResult.noResultExpected =
      collected ++ [[instruction_id, "OK"]] ∧
    Results.completed collected instruction_id (CallResult.value PyVal.none) =
      collected ++ [[instruction_id, "/__VOID__/"]] ∧
    (∀ v : PyVal, v ≠ PyVal.none →
      Results.completed collected instruction_id (CallResult.value v) =
        collected ++ [[instruction_id, to_string v]]) ∧
    Results.completed collected instruction_id (CallResult.value (PyVal.str "")) =
      collected ++ [[instruction_id, ""]] ∧
    ("" : String) ≠ "/__VOID__/" := by
  refine ⟨rfl, rfl, ?_, rfl, by decide⟩
  intro v hv
  cases v with
  | none => exact absurd rfl hv
  | str s => rfl
  | bool b => rfl
  | int n => rfl

theorem C6_completed_semantics_witness :
    (PyVal.str "x" ≠ PyVal.none) ∧
    Results.completed [] "id_1" (CallResult.value (PyVal.str "x")) = [["id_1", "x"]] ∧
    Results.completed [] "id_1" (CallResult.value (PyVal.str "")) = [["id_1", ""]] := by
  have h := C6_completed_semantics [] "id_1"
  exact ⟨by decide, by rw [h.2.2.1 (PyVal.str "x") (by decide)]; rfl, by rw [h.2.2.2.1]; rfl⟩

/-! ## Claim C7 — missing instances versus stored nil -/

/-- Embeds `ExecutionContext.store_instance`: `self.instances[name] = value`. -/
def store_instance (instances : List (String × PyVal)) (name : String) (value : PyVal) :
    List (String × PyVal) :=
  instances ++ [(name, value)]

/-- Embeds `ExecutionContext.get_instance`: `self.instances.get(name, None)`. -/
def get_instance (instances : List (String × PyVal)) (name : String) : PyVal :=
  (pyDictGet instances name).getD PyVal.none

/-- C7 counterexample: after storing `None` under `"stored"`, looking up
`"stored"` and looking up the never-stored `"missing"` give the *same*
result (`None`), so `get_instance` has no sentinel distinguishable from a
stored nil. -/
theorem C7_counterexample :
    get_instance (store_instance [] "stored" PyVal.none) "stored" =
      get_instance (store_instance [] "stored" PyVal.none) "missing" := by decide

/-- C7 (amended): `get_instance` returns `None` for names not in the
instance table, and a stored `None` is therefore indistinguishable from a
missing instance. -/
theorem C7_get_instance_none_default (instances : List (String × PyVal))
    (name unknown : String) (h : pyDictGet instances unknown = Option.none) :
    get_instance (store_instance instances name PyVal.none) name = PyVal.none ∧
    get_instance instances unknown = PyVal.none := by
  constructor
  · rw [get_instance, store_instance, pyDictGet_append]
    have hone : pyDictGet [(name, PyVal.none)] name = some PyVal.none := by
      simp [pyDictGet]
    rw [hone]
    rfl
  · rw [get_instance, h]
    rfl

theorem C7_get_instance_none_default_witness :
    pyDictGet ([("a", PyVal.int 3)] : List (String × PyVal)) "b" = Option.none ∧
    get_instance (store_instance [("a", PyVal.int 3)] "a" PyVal.none) "a" = PyVal.none ∧
    get_instance [("a", PyVal.int 3)] "b" = PyVal.none := by
  have h := C7_get_instance_none_default [("a", PyVal.int 3)] "a" "b" (by decide)
  exact ⟨by decide, h.1, h.2⟩

/-! ## Claim C8 — the true/false bool converter -/

/-- C8 counterexample: `from_string` lower-cases its input before the
comparison, so the input `"True"` — different from `"true"` — also maps
to `true`, contradicting "true exactly for the input string `\"true\"`". -/
theorem C8_counterexample :
    TrueFalseConverter.from_string "True" = true ∧ "True" ≠ "true" := by
  constructor
  · decide
  · decide

/-- C8 (amended): `from_string` returns true exactly for the strings whose
ASCII lower-casing is `"true"` (`value.lower() == 'true'`), and
`to_string` maps `true` to `"true"` and `false` to `"false"`. -/
theorem C8_true_false_converter :
    (∀ s : String, TrueFalseConverter.from_string s = true ↔ pyLower s = "true") ∧
    TrueFalseConverter.to_string true = "true" ∧
    TrueFalseConverter.to_string false = "false" := by
  refine ⟨?_, rfl, rfl⟩
  intro s
  rw [TrueFalseConverter.from_string, beq_iff_eq]

/-! ## Claim C2 — symbol substitution (`ParamsConverter`, `execution.py`) -/

/-- A `\w` word character (ASCII fragment; the engine compiles the pattern
with `re.UNICODE`, but every input of the claims is ASCII). -/
def pyIsWordChar (c : Char) : Bool := c.isAlpha || c.isDigit || c == '_'

/-- Embeds `ExecutionContext.get_symbol`: the stored value for a known
symbol name, otherwise the literal `'$%s' % name`. -/
def get_symbol (symbols : List (String × String)) (name : String) : String :=
  match pyDictGet symbols name with
  | some value => value
  | Option.none => "$" ++ name

/-- Embeds `_SYMBOL_PATTERN.sub(self._match, possible_symbol, re.S)` for
the pattern `\$([a-zA-Z]\w*)+`, which matches `$` followed by a letter and
the maximal run of word characters (the outer `+` cannot repeat, since the
greedy `\w*` leaves no word character to start another repetition). The
scan runs left to right; each match is replaced by
`get_symbol(identifier)`; `remaining` is what is left of `re.sub`'s
`count` argument — the source passes `re.S`, the integer 16, in that
position — and when it reaches zero the rest of the string is copied
unchanged. (The `count = 0` means-unlimited case of `re.sub` is never
exercised by the source.) A structural fuel, supplied by `subSymbols`,
makes the definition compute; every step consumes at least one
character, so `cs.length` is always enough. -/
def subSymbolsFuel (symbols : List (String × String)) :
    Nat → List Char → Nat → List Char
  | 0, cs, _ => cs
  | _fuel + 1, [], _ => []
  | fuel + 1, c :: rest, remaining =>
    if remaining = 0 then c :: rest
    else if c = '$' then
      match rest with
      | [] => [c]
      | d :: _ =>
        if d.isAlpha then
          (get_symbol symbols (String.mk (rest.takeWhile pyIsWordChar))).data ++
            subSymbolsFuel symbols fuel (rest.dropWhile pyIsWordChar) (remaining - 1)
        else c :: subSymbolsFuel symbols fuel rest remaining
    else c :: subSymbolsFuel symbols fuel rest remaining

def subSymbols (symbols : List (String × String)) (cs : List Char) (count : Nat) : List Char :=
  subSymbolsFuel symbols cs.length cs count

/-- A call parameter: a string, or a nested list of parameters. -/
inductive Param where
  | str (s : String)
  | list (ps : List Param)

mutual

/-- Embeds `ParamsConverter._lookup_symbol`: a nested list recurses with
`to_args(possible_symbol, 0)` (spelled here as the comprehension over the
whole list, which is what `params[0:]` is); a string goes through the
pattern substitution with `re.S` (= 16) in the `count` position. -/
def lookup_symbol (symbols : List (String × String)) : Param → Param
  | Param.str s => Param.str (String.mk (subSymbols symbols s.data 16))
  | Param.list ps => Param.list (to_args_all symbols ps)

/-- The `[self._lookup_symbol(param) for param in …]` comprehension. -/
def to_args_all (symbols : List (String × String)) : List Param → List Param
  | [] => []
  | p :: rest => lookup_symbol symbols p :: to_args_all symbols rest

end

/-- Embeds `ParamsConverter.to_args`: convert `params[from_position:]`. -/
def to_args (symbols : List (String × String)) (params : List Param)
    (from_position : Nat) : List Param :=
  to_args_all symbols (params.drop from_position)

/-- C2: evaluation of the engine's symbol substitution. The claim's
concrete example holds and an unresolved `$Z` stays literal; but in a
string with 17 occurrences of `$a` only the first 16 are replaced,
because `re.S` — the integer 16 — is passed in the `count` position of
`re.sub`, so "replaces each occurrence" fails on the code. -/
theorem C2_substitution_eval :
    to_args [("A", "X"), ("b_", "Y"), ("id", "20")]
      [Param.str "$A", Param.str "$b_", Param.str "C$", Param.str "id=$id"] 0 =
      [Param.str "X", Param.str "Y", Param.str "C$", Param.str "id=20"] ∧
    to_args [] [Param.str "$Z"] 0 = [Param.str "$Z"] ∧
    to_args [("a", "X")] [Param.str "$a$a$a$a$a$a$a$a$a$a$a$a$a$a$a$a$a"] 0 =
      [Param.str "XXXXXXXXXXXXXXXX$a"] :=
  ⟨rfl, rfl, rfl⟩

/-! ## Claim C3 — method-name aliases (`execution.py`) -/

/-- Embeds the `re.sub('_(.)', lambda m: m.group(1).upper(), method_name)`
core of the camel-case conversions: each `_` followed by a character is
replaced by that character upper-cased (matches are non-overlapping, left
to right). -/
def camelSub : List Char → List Char
  | [] => []
  | '_' :: d :: rest => d.toUpper :: camelSub rest
  | c :: rest => c :: camelSub rest

/-- Embeds `to_lower_camel_case`: the underscore substitution, then
`camel_case[:1].lower() + camel_case[1:]`. -/
def to_lower_camel_case (method_name : String) : String :=
  match camelSub method_name.data with
  | [] => ""
  | c :: rest => String.mk (c.toLower :: rest)

/-- Embeds `to_upper_camel_case`: the underscore substitution, then
`camel_case[:1].upper() + camel_case[1:]`. -/
def to_upper_camel_case (method_name : String) : String :=
  match camelSub method_name.data with
  | [] => ""
  | c :: rest => String.mk (c.toUpper :: rest)

/-- Embeds `ExecutionContext.convention_aliases`. With dicts as assignment
sequences, `camel_caseds` — the lowerCamel comprehension updated by the
UpperCamel comprehension — is their concatenation; both iterate over the
keys of `aliases` in first-insertion order, and `aliases[name]` cannot
fail on a key (`getD` supplies an unreachable default). -/
def convention_aliases (aliases : List (String × String)) : List (String × String) :=
  (pyDictKeys aliases).map
      (fun name => (to_lower_camel_case name, (pyDictGet aliases name).getD name)) ++
  (pyDictKeys aliases).map
      (fun name => (to_upper_camel_case name, (pyDictGet aliases name).getD name))

/-- Embeds `ExecutionContext.get_aliases`:
`aliases = dict((n, n) for n in methods)`, then
`aliases.update(ExecutionContext.convention_aliases(aliases))`. -/
def get_aliases (methods : List String) : List (String × String) :=
  methods.map (fun n => (n, n)) ++ convention_aliases (methods.map (fun n => (n, n)))

/-- The three spellings the alias map is meant to register for a
canonical method name. -/
def aliasSpellings (m : String) : List String :=
  [m, to_lower_camel_case m, to_upper_camel_case m]

/-- Embeds `ExecutionContext.target_for`, with the instance abstracted by
its class name and its attribute names:
`self.aliases[class_name][method_name]` raises `KeyError` (the `error ()`
result) when the class or the spelling has no entry; otherwise
`hasattr`/`getattr` on the canonical name returns the bound method (here
its canonical name) or `None`. -/
def target_for (ctx_aliases : List (String × List (String × String)))
    (class_name : String) (instance_methods : List String) (method_name : String) :
    Except Unit (Option String) :=
  match pyDictGet ctx_aliases class_name with
  | Option.none => Except.error ()
  | some amap =>
    match pyDictGet amap method_name with
    | Option.none => Except.error ()
    | some canonical =>
      if instance_methods.contains canonical then Except.ok (some canonical)
      else Except.ok Option.none

theorem pyDictGet_cons {α : Type} (p : String × α) (l : List (String × α)) (k : String) :
    pyDictGet (p :: l) k = (pyDictGet l k).or (if p.1 == k then some p.2 else none) := by
  have h : p :: l = [p] ++ l := rfl
  rw [h, pyDictGet_append]
  congr 1
  rw [pyDictGet]
  cases hb : p.1 == k <;> simp [hb]

theorem pyDictGet_map_id (ms : List String) (k : String) :
    pyDictGet (ms.map (fun n => (n, n))) k = if k ∈ ms then some k else none := by
  induction ms with
  | nil => simp [pyDictGet_nil]
  | cons m rest ih =>
    rw [List.map_cons, pyDictGet_cons, ih]
    by_cases hk : k ∈ rest
    · simp [hk]
    · by_cases hm : m = k
      · subst hm
        simp [hk]
      · have hb : (m == k) = false := by simp [hm]
        have hkm : ¬k = m := fun h => hm h.symm
        simp [hk, hb, hkm]

theorem pyDictKeys_mem {α : Type} (d : List (String × α)) (k : String) :
    k ∈ pyDictKeys d ↔ k ∈ d.map (fun p => p.1) := by
  have haux : ∀ (l : List String) (acc : List String),
      k ∈ l.foldl (fun acc k => if k ∈ acc then acc else acc ++ [k]) acc ↔
        k ∈ acc ∨ k ∈ l := by
    intro l
    induction l with
    | nil => simp
    | cons x rest ih =>
      intro acc
      rw [List.foldl_cons]
      by_cases hx : x ∈ acc
      · rw [if_pos hx, ih]
        constructor
        · rintro (h | h)
          · exact Or.inl h
          · exact Or.inr (by simp [h])
        · rintro (h | h)
          · exact Or.inl h
          · rcases List.mem_cons.mp h with rfl | h
            · exact Or.inl hx
            · exact Or.inr h
      · rw [if_neg hx, ih]
        constructor
        · rintro (h | h)
          · rcases List.mem_append.mp h with h | h
            · exact Or.inl h
            · simp at h
              exact Or.inr (by simp [h])
          · exact Or.inr (by simp [h])
        · rintro (h | h)
          · exact Or.inl (List.mem_append.mpr (Or.inl h))
          · rcases List.mem_cons.mp h with rfl | h
            · exact Or.inl (by simp)
            · exact Or.inr h
  rw [pyDictKeys, haux]
  simp

theorem get_aliases_mem {ms : List String} {k v : String} :
    (k, v) ∈ get_aliases ms ↔
      (k = v ∧ v ∈ ms) ∨
      (v ∈ ms ∧ (k = to_lower_camel_case v ∨ k = to_upper_camel_case v)) := by
  rw [get_aliases, List.mem_append, convention_aliases, List.mem_append]
  constructor
  · rintro (h | h | h)
    · rcases List.mem_map.mp h with ⟨n, hn, he⟩
      rw [Prod.mk.injEq] at he
      exact Or.inl ⟨by rw [← he.1, ← he.2], by rw [← he.2]; exact hn⟩
    · rcases List.mem_map.mp h with ⟨n, hn, he⟩
      have hnm : n ∈ ms := by
        have := (pyDictKeys_mem _ n).mp hn
        simpa using this
      have hval : (pyDictGet (ms.map fun n => (n, n)) n).getD n = n := by
        rw [pyDictGet_map_id, if_pos hnm]
        rfl
      rw [Prod.mk.injEq, hval] at he
      exact Or.inr ⟨by rw [← he.2]; exact hnm, Or.inl (by rw [← he.1, he.2])⟩
    · rcases List.mem_map.mp h with ⟨n, hn, he⟩
      have hnm : n ∈ ms := by
        have := (pyDictKeys_mem _ n).mp hn
        simpa using this
      have hval : (pyDictGet (ms.map fun n => (n, n)) n).getD n = n := by
        rw [pyDictGet_map_id, if_pos hnm]
        rfl
      rw [Prod.mk.injEq, hval] at he
      exact Or.inr ⟨by rw [← he.2]; exact hnm, Or.inr (by rw [← he.1, he.2])⟩
  · have hkeys : ∀ n, n ∈ ms → n ∈ pyDictKeys (ms.map fun n => (n, n)) := by
      intro n hn
      rw [pyDictKeys_mem]
      simpa using hn
    have hval : ∀ n, n ∈ ms → (pyDictGet (ms.map fun n => (n, n)) n).getD n = n := by
      intro n hn
      rw [pyDictGet_map_id, if_pos hn]
      rfl
    rintro (⟨rfl, hv⟩ | ⟨hv, hk | hk⟩)
    · exact Or.inl (List.mem_map.mpr ⟨k, hv, rfl⟩)
    · refine Or.inr (Or.inl (List.mem_map.mpr ⟨v, hkeys v hv, ?_⟩))
      rw [hval v hv, hk]
    · refine Or.inr (Or.inr (List.mem_map.mpr ⟨v, hkeys v hv, ?_⟩))
      rw [hval v hv, hk]

/-- C3 counterexample: for a class defining only `aMethod`, the alias map
also registers the UpperCamel spelling `AMethod`, and `target_for`
resolves a call under it — so "callable as `aMethod` only" fails; a call
as `a_method` finds no alias entry at all and raises `KeyError` (an
`Except.error`, not the claimed `NO_METHOD_IN_CLASS` row). -/
theorem C3_counterexample :
    target_for [("Fixture", get_aliases ["aMethod"])] "Fixture" ["aMethod"] "AMethod" =
      Except.ok (some "aMethod") ∧
    ("AMethod" : String) ≠ "aMethod" ∧
    target_for [("Fixture", get_aliases ["aMethod"])] "Fixture" ["aMethod"] "a_method" =
      Except.error () :=
  ⟨rfl, by decide, rfl⟩

/-- C3 (amended): when no two canonical names share any of each other's
three spellings, the alias map sends each canonical name, its lowerCamel
spelling and its UpperCamel spelling to the canonical name, and contains
no entry outside those spellings; consequently a class defining
`a_method` is callable under all three spellings (and a class defining
only `aMethod` is callable as `aMethod` and as `AMethod`, see the
counterexample). -/
theorem C3_alias_map (ms : List String)
    (hdisj : ∀ m ∈ ms, ∀ m' ∈ ms, m ≠ m' → ∀ k ∈ aliasSpellings m, k ∉ aliasSpellings m') :
    (∀ m ∈ ms,
      pyDictGet (get_aliases ms) m = some m ∧
      pyDictGet (get_aliases ms) (to_lower_camel_case m) = some m ∧
      pyDictGet (get_aliases ms) (to_upper_camel_case m) = some m) ∧
    (∀ k v, pyDictGet (get_aliases ms) k = some v → v ∈ ms ∧ k ∈ aliasSpellings v) ∧
    (∀ spelling ∈ aliasSpellings "a_method",
      target_for [("Fixture", get_aliases ["a_method"])] "Fixture" ["a_method"] spelling =
        Except.ok (some "a_method")) := by
  refine ⟨?_, ?_, ?_⟩
  case refine_3 =>
    intro spelling hsp
    rw [aliasSpellings] at hsp
    simp only [List.mem_cons, List.not_mem_nil, or_false] at hsp
    rcases hsp with rfl | rfl | rfl <;> rfl
  · intro m hm
    have huniq : ∀ k, k ∈ aliasSpellings m → ∀ w, (k, w) ∈ get_aliases ms → w = m := by
      intro k hk w hw
      rcases get_aliases_mem.mp hw with ⟨he, hwms⟩ | ⟨hwms, hcam⟩
      · by_contra hne
        refine hdisj m hm w hwms (fun hmw => hne hmw.symm) k hk ?_
        rw [aliasSpellings, he]
        exact List.mem_cons_self _ _
      · by_contra hne
        refine hdisj m hm w hwms (fun hmw => hne hmw.symm) k hk ?_
        rw [aliasSpellings]
        rcases hcam with h | h <;> simp [h]
    have hget : ∀ k, k ∈ aliasSpellings m → ((k, m) ∈ get_aliases ms) →
        pyDictGet (get_aliases ms) k = some m := by
      intro k hk hmem
      have hs := pyDictGet_isSome_of_mem hmem
      cases hopt : pyDictGet (get_aliases ms) k with
      | none => rw [hopt] at hs; simp at hs
      | some w => exact congrArg some (huniq k hk w (pyDictGet_mem hopt))
    refine ⟨?_, ?_, ?_⟩
    · exact hget m (by rw [aliasSpellings]; exact List.mem_cons_self _ _)
        (get_aliases_mem.mpr (Or.inl ⟨rfl, hm⟩))
    · exact hget (to_lower_camel_case m) (by rw [aliasSpellings]; simp)
        (get_aliases_mem.mpr (Or.inr ⟨hm, Or.inl rfl⟩))
    · exact hget (to_upper_camel_case m) (by rw [aliasSpellings]; simp)
        (get_aliases_mem.mpr (Or.inr ⟨hm, Or.inr rfl⟩))
  · intro k v h
    rcases get_aliases_mem.mp (pyDictGet_mem h) with ⟨he, hv⟩ | ⟨hv, hk⟩
    · refine ⟨hv, ?_⟩
      rw [aliasSpellings, he]
      exact List.mem_cons_self _ _
    · refine ⟨hv, ?_⟩
      rw [aliasSpellings]
      rcases hk with h' | h' <;> simp [h']

theorem C3_alias_map_witness :
    pyDictGet (get_aliases ["pythonic_case", "CamelCase"]) "PythonicCase" =
      some "pythonic_case" ∧
    pyDictGet (get_aliases ["pythonic_case", "CamelCase"]) "camelCase" = some "CamelCase" ∧
    pyDictGet (get_aliases ["pythonic_case", "CamelCase"]) "pythonic_case" =
      some "pythonic_case" := by
  have h := C3_alias_map ["pythonic_case", "CamelCase"] (by decide)
  have h1 := h.1 "pythonic_case" (by decide)
  have h2 := h.1 "CamelCase" (by decide)
  exact ⟨h1.2.2, h2.2.1, h1.1⟩
